import Mathlib

/-
Verification of the habitat-suitability calculator (`calculate_uha.py`).

The embedding models raster cells as `Option ℚ`: `none` is a missing cell
(masked / NaN in numpy), `some q` a valid sample.  All numeric work in the
program is elementary arithmetic, embedded here over ℚ (exact arithmetic);
the single square root in the pipeline (`chsi = np.sqrt(si_h * si_v)`) is
represented by storing the radicand `si_h * si_v` in the cHSI cell (`none`
when the product is negative, matching numpy's NaN for sqrt of a negative
number) and proving the threshold comparison `chsi > threshold` equivalent
to a decidable test on the radicand via `Real.sqrt`.
-/

namespace CalculateUHA

/-- A raster cell: `none` models a masked / NaN sample. -/
abbrev Cell := Option ℚ

/-! ## piecewise_linear (src/calculate_uha.py, lines 31-58)

`np.interp(arr, x_pts, y_pts)` clamps to `y_pts[0]` below the first break
point and to `y_pts[-1]` above the last one, and interpolates linearly on
the bracketing segment inside the domain; the source then overwrites the
clamped values with linear extrapolation on both sides.  `interpGo`
implements the in-range lookup by walking the break points; at an interior
break point `x1` the segment formula evaluates to exactly `y1` in ℚ, so
using the left segment there agrees with numpy's searchsorted choice. -/

/-- In-range part of `np.interp`, assuming `x_pts.headD 0 < v`:
walk the segments until the bracketing one is found; past the last break
point return the last y (numpy's right clamp, later overwritten by the
extrapolation branch of the source). -/
def interpGo (v : ℚ) : List ℚ → List ℚ → ℚ
  | [], _ => 0
  | _ :: [], y :: _ => y
  | x0 :: x1 :: xs, y0 :: y1 :: ys =>
    if v ≤ x1 then y0 + (y1 - y0) / (x1 - x0) * (v - x0)
    else interpGo v (x1 :: xs) (y1 :: ys)
  | _ :: _ :: _, _ => 0
  | _ :: [], [] => 0

/-- `np.interp(v, x_pts, y_pts)` on a single value. -/
def npInterp (v : ℚ) (xs ys : List ℚ) : ℚ :=
  match xs, ys with
  | x0 :: _, y0 :: _ => if v ≤ x0 then y0 else interpGo v xs ys
  | _, _ => 0

/-- One cell of `piecewise_linear`: NaN (missing) passes through untouched
(`np.interp` maps NaN to NaN and both extrapolation masks are false on
NaN); otherwise `np.interp` followed by the two extrapolation overwrites
of the source (`arr < x_pts[0]` and `arr > x_pts[-1]`). -/
def piecewise_linear_cell (xs ys : List ℚ) : Cell → Cell
  | none => none
  | some a =>
    let si := npInterp a xs ys
    let si :=
      if a < xs.headD 0 then
        ys.headD 0 +
          (ys.getD 1 0 - ys.headD 0) / (xs.getD 1 0 - xs.headD 0) * (a - xs.headD 0)
      else si
    let si :=
      if xs.getLastD 0 < a then
        ys.getLastD 0 +
          (ys.getLastD 0 - ys.getD (ys.length - 2) 0) /
            (xs.getLastD 0 - xs.getD (xs.length - 2) 0) * (a - xs.getLastD 0)
      else si
    some si

/-- `piecewise_linear(values, x_pts, y_pts)`: elementwise over the array. -/
def piecewise_linear (values : List Cell) (xs ys : List ℚ) : List Cell :=
  values.map (piecewise_linear_cell xs ys)

/-! ## read_suitability_csv (src/calculate_uha.py, lines 63-84)

A CSV data row after the skipped header holds four fields
`h, si_h, v, si_v`, any of which may be missing (the depth columns are NaN
on rows that only extend the velocity curve).  The source builds one
data-frame per variable, drops rows with a missing component (`dropna`),
sorts by the x column (`sort_values`, a stable sort) and returns the four
arrays.  It performs no validation and can signal no error; the `Except`
codomain records that the Python function could in principle raise, with
`CurveError.invalidCurve` as the error the specification names. -/

/-- One parsed CSV row: `h, si_h, v, si_v`, each possibly missing. -/
structure CurveRow where
  h : Option ℚ
  si_h : Option ℚ
  v : Option ℚ
  si_v : Option ℚ

/-- The error taxonomy the specification assigns to curve loading. -/
inductive CurveError
  | invalidCurve
deriving DecidableEq

/-- `dropna` on a two-column frame: keep only complete pairs. -/
def dropnaPairs (ps : List (Option ℚ × Option ℚ)) : List (ℚ × ℚ) :=
  ps.filterMap fun p =>
    match p with
    | (some x, some y) => some (x, y)
    | _ => none

/-- `sort_values` on the x column: a stable sort by first component. -/
def sortByX (ps : List (ℚ × ℚ)) : List (ℚ × ℚ) :=
  ps.mergeSort fun p q => decide (p.1 ≤ q.1)

/-- `read_suitability_csv`: per variable, drop incomplete pairs, sort by x,
return the two column arrays.  The source never raises on short curves. -/
def read_suitability_csv (rows : List CurveRow) :
    Except CurveError (List ℚ × List ℚ × List ℚ × List ℚ) :=
  let depth := sortByX (dropnaPairs (rows.map fun r => (r.h, r.si_h)))
  let vel := sortByX (dropnaPairs (rows.map fun r => (r.v, r.si_v)))
  .ok (depth.map Prod.fst, depth.map Prod.snd, vel.map Prod.fst, vel.map Prod.snd)

/-! ## Rasters and grid alignment (src/calculate_uha.py, lines 97-113) -/

/-- The six affine-transform coefficients; `a` is the pixel width
(`transform[0]`) and `e` the signed pixel height (`transform[4]`). -/
structure Affine where
  a : ℚ
  b : ℚ
  c : ℚ
  d : ℚ
  e : ℚ
  f : ℚ
deriving DecidableEq

/-- A single-band raster: shape, affine transform and row-major samples. -/
structure Raster where
  width : Nat
  height : Nat
  transform : Affine
  data : List Cell
deriving DecidableEq

/-- Read a sample with indices clamped to the grid edge (used by the
bilinear model at the border). -/
def getCellClamped (r : Raster) (row col : ℤ) : Cell :=
  let row' := max 0 (min row ((r.height : ℤ) - 1))
  let col' := max 0 (min col ((r.width : ℤ) - 1))
  r.data.getD (row'.toNat * r.width + col'.toNat) none

/-- The centre of target pixel column `col`, in source pixel coordinates,
when the source extent is mapped onto `dstW` columns. -/
def srcX (src : Raster) (dstW col : Nat) : ℚ :=
  ((col : ℚ) + 1/2) * (src.width : ℚ) / (dstW : ℚ) - 1/2

/-- The centre of target pixel row `row`, in source pixel coordinates. -/
def srcY (src : Raster) (dstH row : Nat) : ℚ :=
  ((row : ℚ) + 1/2) * (src.height : ℚ) / (dstH : ℚ) - 1/2

/-- The four source cells surrounding a target pixel centre. -/
def bilinearNeighbors (src : Raster) (dstW dstH row col : Nat) : List Cell :=
  let c0 : ℤ := (srcX src dstW col).floor
  let r0 : ℤ := (srcY src dstH row).floor
  [getCellClamped src r0 c0, getCellClamped src r0 (c0 + 1),
    getCellClamped src (r0 + 1) c0, getCellClamped src (r0 + 1) (c0 + 1)]

/-- Modelled from the spec: the bilinear resampling performed by the raster
I/O library when the velocity band is read with a target `out_shape` and
bilinear resampling (src/calculate_uha.py, lines 106-109) lives outside
this repository.  Following §4.3 of the spec, each target cell blends the
four surrounding source cells (edge-clamped) with bilinear weights, and a
missing input cell propagates as missing to every target cell it
contributes to. -/
def bilinearCell (src : Raster) (dstW dstH row col : Nat) : Cell := do
  let sx := srcX src dstW col
  let sy := srcY src dstH row
  let c0 : ℤ := sx.floor
  let r0 : ℤ := sy.floor
  let fx : ℚ := sx - c0
  let fy : ℚ := sy - r0
  let v00 ← getCellClamped src r0 c0
  let v01 ← getCellClamped src r0 (c0 + 1)
  let v10 ← getCellClamped src (r0 + 1) c0
  let v11 ← getCellClamped src (r0 + 1) (c0 + 1)
  pure ((1 - fy) * ((1 - fx) * v00 + fx * v01) + fy * ((1 - fx) * v10 + fx * v11))

/-- Modelled from the spec: resample `other` onto the reference grid's
width and height, cell by cell. -/
def resampleBilinear (ref other : Raster) : Raster :=
  { width := ref.width
    height := ref.height
    transform := other.transform
    data := (List.range (ref.height * ref.width)).map fun i =>
      bilinearCell other ref.width ref.height (i / ref.width) (i % ref.width) }

/-- The grid-alignment branch of `calculate_habitat`
(src/calculate_uha.py, lines 100-113): resample the velocity raster onto
the depth grid exactly when width, height or transform differ. -/
def alignVelocity (dep vel : Raster) : Raster :=
  if vel.width ≠ dep.width ∨ vel.height ≠ dep.height ∨ vel.transform ≠ dep.transform
  then resampleBilinear dep vel
  else vel

/-! ## Compositing and usable-habitat statistics
(src/calculate_uha.py, lines 120 and 137-142)

`chsi = np.sqrt(si_h * si_v)`: ℚ has no square root, so a cHSI cell stores
the radicand `si_h * si_v`; `none` stands both for a missing input (NaN
propagates through the product and the root) and for numpy's NaN on the
square root of a negative product.  The threshold test on the true cHSI
value, `sqrt p > t`, is decided on the radicand as `t < 0 ∨ t² < p`;
theorems below prove this equal to the source's comparison via
`Real.sqrt`. -/

/-- One cell of `np.sqrt(si_h * si_v)`, stored as the radicand. -/
def chsiCell (a b : Cell) : Cell :=
  match a, b with
  | some x, some y => if x * y < 0 then none else some (x * y)
  | _, _ => none

/-- `np.sqrt(si_h * si_v)` over two same-shape rasters, elementwise. -/
def chsi (si_h si_v : List Cell) : List Cell :=
  List.zipWith chsiCell si_h si_v

/-- One cell of `chsi > threshold`: false on missing (NaN compares false),
otherwise decides `sqrt p > t` on the radicand `p`. -/
def usableCell (t : ℚ) : Cell → Bool
  | none => false
  | some p => decide (t < 0 ∨ t * t < p)

/-- `n_pixels = np.count_nonzero(chsi > threshold)`. -/
def n_pixels (cells : List Cell) (t : ℚ) : Nat :=
  cells.countP (usableCell t)

/-- `pixel_area_m2 = abs(transform[0] * transform[4])`. -/
def pixel_area_m2 (tr : Affine) : ℚ := |tr.a * tr.e|

/-- `total_area_m2 = n_pixels * pixel_area_m2`. -/
def total_area_m2 (cells : List Cell) (t : ℚ) (tr : Affine) : ℚ :=
  (n_pixels cells t : ℚ) * pixel_area_m2 tr

/-! ## Lemmas about the break-point lists -/

/-- Strictly ascending break points give strictly increasing samples. -/
theorem chain_getD_lt {xs : List ℚ} (h : List.Chain' (· < ·) xs) {i j : Nat}
    (hij : i < j) (hj : j < xs.length) : xs.getD i 0 < xs.getD j 0 := by
  have hp : List.Pairwise (· < ·) xs := List.chain'_iff_pairwise.mp h
  rw [List.pairwise_iff_getElem] at hp
  have hi : i < xs.length := hij.trans hj
  have := hp i j hi hj hij
  rwa [List.getD_eq_getElem _ _ hi, List.getD_eq_getElem _ _ hj]

/-- `x_pts[-1]` is the sample at index `length - 1`. -/
theorem getLastD_eq_getD : ∀ (xs : List ℚ), xs ≠ [] →
    xs.getLastD 0 = xs.getD (xs.length - 1) 0
  | [], h => absurd rfl h
  | [_], _ => rfl
  | x :: y :: t, _ => by
    have ih := getLastD_eq_getD (y :: t) (by simp)
    simpa [List.getLastD_cons] using ih

/-- The in-range walk lands on the bracketing segment and applies its
linear formula there. -/
theorem interpGo_bracket (v : ℚ) (xs : List ℚ) :
    ∀ ys : List ℚ, List.Chain' (· < ·) xs → ys.length = xs.length →
      xs.headD 0 < v → v ≤ xs.getLastD 0 →
      ∃ i, i + 1 < xs.length ∧ xs.getD i 0 ≤ v ∧ v ≤ xs.getD (i + 1) 0 ∧
        interpGo v xs ys =
          ys.getD i 0 +
            (ys.getD (i + 1) 0 - ys.getD i 0) / (xs.getD (i + 1) 0 - xs.getD i 0) *
              (v - xs.getD i 0) := by
  induction xs with
  | nil =>
    intro ys _ _ hlo hhi
    simp only [List.headD_nil, List.getLastD_nil] at hlo hhi
    exact absurd (hlo.trans_le hhi) (lt_irrefl 0)
  | cons x0 rest ih =>
    intro ys hasc hlen hlo hhi
    rcases rest with _ | ⟨x1, xs'⟩
    · simp only [List.headD_cons, List.getLastD_cons, List.getLastD_nil] at hlo hhi
      exact absurd (hlo.trans_le hhi) (lt_irrefl _)
    rcases ys with _ | ⟨y0, _ | ⟨y1, ys'⟩⟩
    · simp at hlen
    · simp at hlen
    by_cases hv : v ≤ x1
    · refine ⟨0, by simp, le_of_lt (by simpa using hlo), by simpa using hv, ?_⟩
      simp [interpGo, hv]
    · push_neg at hv
      have hasc' : List.Chain' (· < ·) (x1 :: xs') := (List.chain'_cons.mp hasc).2
      have hlen' : (y1 :: ys').length = (x1 :: xs').length := by simpa using hlen
      have hlo' : (x1 :: xs').headD 0 < v := by simpa using hv
      have hhi' : v ≤ (x1 :: xs').getLastD 0 := by
        simpa [List.getLastD_cons] using hhi
      obtain ⟨i, hi, h1, h2, h3⟩ := ih (y1 :: ys') hasc' hlen' hlo' hhi'
      refine ⟨i + 1, by simpa using hi, by simpa using h1, by simpa using h2, ?_⟩
      simpa [interpGo, not_le.mpr hv] using h3

/-- The in-range walk is exact at interior break points: the left-segment
formula cancels to the break point's own y-value. -/
theorem interpGo_breakpoint (xs : List ℚ) :
    ∀ (ys : List ℚ) (i : Nat), List.Chain' (· < ·) xs → ys.length = xs.length →
      i < xs.length → 1 ≤ i →
      interpGo (xs.getD i 0) xs ys = ys.getD i 0 := by
  induction xs with
  | nil => intro ys i _ _ hi _; simp at hi
  | cons x0 rest ih =>
    intro ys i hasc hlen hi h1
    rcases rest with _ | ⟨x1, xs'⟩
    · simp only [List.length_cons, List.length_nil] at hi
      omega
    rcases ys with _ | ⟨y0, _ | ⟨y1, ys'⟩⟩
    · simp at hlen
    · simp at hlen
    obtain ⟨j, rfl⟩ : ∃ j, i = j + 1 := ⟨i - 1, by omega⟩
    have hx01 : x0 < x1 := (List.chain'_cons.mp hasc).1
    rcases Nat.eq_zero_or_pos j with rfl | hj
    · have hne : x1 - x0 ≠ 0 := sub_ne_zero.mpr (ne_of_gt hx01)
      simp only [List.getD_cons_succ, List.getD_cons_zero, interpGo, le_refl, if_pos]
      field_simp
    · have hlt : x1 < (x1 :: xs').getD j 0 := by
        have := chain_getD_lt (List.chain'_cons.mp hasc).2 (i := 0) (j := j)
          hj (by simpa using hi)
        simpa using this
      have hrec := ih (y1 :: ys') j (List.chain'_cons.mp hasc).2
        (by simpa using hlen) (by simpa using hi) (by omega)
      simp only [List.getD_cons_succ]
      rw [interpGo, if_neg (not_le.mpr hlt)]
      exact hrec

/-- `np.interp` is exact at every break point. -/
theorem npInterp_breakpoint (xs ys : List ℚ) (i : Nat)
    (hasc : List.Chain' (· < ·) xs) (hlen : ys.length = xs.length)
    (hi : i < xs.length) :
    npInterp (xs.getD i 0) xs ys = ys.getD i 0 := by
  rcases xs with _ | ⟨x0, xs'⟩
  · simp at hi
  rcases ys with _ | ⟨y0, ys'⟩
  · simp at hlen
  rcases Nat.eq_zero_or_pos i with rfl | h1
  · simp [npInterp]
  · have hlt : x0 < (x0 :: xs').getD i 0 := by
      simpa using chain_getD_lt hasc (i := 0) (j := i) h1 hi
    rw [npInterp, if_neg (not_le.mpr hlt)]
    exact interpGo_breakpoint (x0 :: xs') (y0 :: ys') i hasc hlen hi h1

/-- Inside the curve domain neither extrapolation branch fires. -/
theorem piecewise_linear_cell_inrange (xs ys : List ℚ) (v : ℚ)
    (hlo : xs.headD 0 ≤ v) (hhi : v ≤ xs.getLastD 0) :
    piecewise_linear_cell xs ys (some v) = some (npInterp v xs ys) := by
  simp only [piecewise_linear_cell]
  rw [if_neg (not_lt.mpr hhi), if_neg (not_lt.mpr hlo)]

/-- In-range lookup through `piecewise_linear_cell`: the bracketing
segment's linear formula is applied. -/
theorem piecewise_linear_cell_bracket (xs ys : List ℚ) (v : ℚ)
    (hasc : List.Chain' (· < ·) xs) (hlen2 : 2 ≤ xs.length)
    (hlen : ys.length = xs.length)
    (hlo : xs.headD 0 ≤ v) (hhi : v ≤ xs.getLastD 0) :
    ∃ i, i + 1 < xs.length ∧ xs.getD i 0 ≤ v ∧ v ≤ xs.getD (i + 1) 0 ∧
      piecewise_linear_cell xs ys (some v) =
        some (ys.getD i 0 +
          (ys.getD (i + 1) 0 - ys.getD i 0) / (xs.getD (i + 1) 0 - xs.getD i 0) *
            (v - xs.getD i 0)) := by
  rw [piecewise_linear_cell_inrange xs ys v hlo hhi]
  rcases eq_or_lt_of_le hlo with heq | hlt
  · rcases xs with _ | ⟨x0, _ | ⟨x1, xs'⟩⟩
    · simp at hlen2
    · simp at hlen2
    rcases ys with _ | ⟨y0, _ | ⟨y1, ys'⟩⟩
    · simp at hlen
    · simp at hlen
    have hx0v : x0 = v := by simpa using heq
    have hx01 : x0 < x1 := (List.chain'_cons.mp hasc).1
    refine ⟨0, by simp, by simpa using hlo, ?_, ?_⟩
    · simpa [← hx0v] using le_of_lt hx01
    · rw [npInterp, if_pos (le_of_eq hx0v.symm)]
      simp [← hx0v]
  · obtain ⟨i, hi, h1, h2, h3⟩ :=
      interpGo_bracket v xs ys hasc hlen hlt hhi
    refine ⟨i, hi, h1, h2, ?_⟩
    rcases xs with _ | ⟨x0, xs'⟩
    · simp at hi
    rcases ys with _ | ⟨y0, ys'⟩
    · simp at hlen
    rw [npInterp, if_neg (not_le.mpr (by simpa using hlt))]
    exact congrArg some h3

/-- `x_pts[0]` is the sample at index 0. -/
theorem headD_eq_getD : ∀ xs : List ℚ, xs.headD 0 = xs.getD 0 0
  | [] => rfl
  | _ :: _ => rfl

/-! ## Claims about piecewise_linear -/

/-- Claim C1: for every suitability curve with strictly ascending, unique
x break points (length ≥ 2) and every non-missing input value `v` with
`x_min ≤ v ≤ x_max`, `piecewise_linear` returns the value on the straight
line between the two bracketing break points, and for `v` exactly equal to
a break point's x-value it returns that break point's y-value exactly. -/
theorem piecewise_linear_interpolates (xs ys : List ℚ) (values : List Cell)
    (j : Nat) (v : ℚ)
    (hasc : List.Chain' (· < ·) xs) (hlen2 : 2 ≤ xs.length)
    (hlen : ys.length = xs.length)
    (hval : values[j]? = some (some v))
    (hlo : xs.headD 0 ≤ v) (hhi : v ≤ xs.getLastD 0) :
    (∃ i, i + 1 < xs.length ∧ xs.getD i 0 ≤ v ∧ v ≤ xs.getD (i + 1) 0 ∧
      (piecewise_linear values xs ys)[j]? =
        some (some (ys.getD i 0 +
          (ys.getD (i + 1) 0 - ys.getD i 0) / (xs.getD (i + 1) 0 - xs.getD i 0) *
            (v - xs.getD i 0)))) ∧
    (∀ i, i < xs.length → v = xs.getD i 0 →
      (piecewise_linear values xs ys)[j]? = some (some (ys.getD i 0))) := by
  have hmap : (piecewise_linear values xs ys)[j]? =
      some (piecewise_linear_cell xs ys (some v)) := by
    simp [piecewise_linear, List.getElem?_map, hval]
  constructor
  · obtain ⟨i, hi, h1, h2, h3⟩ :=
      piecewise_linear_cell_bracket xs ys v hasc hlen2 hlen hlo hhi
    exact ⟨i, hi, h1, h2, by rw [hmap, h3]⟩
  · intro i hilen hvi
    subst hvi
    rw [hmap, piecewise_linear_cell_inrange xs ys _ hlo hhi,
      npInterp_breakpoint xs ys i hasc hlen hilen]

/-- Concrete run of `piecewise_linear_interpolates`: with the curve
`x = [0,1,2], y = [0,1/2,1]` the input `1` (a break point) maps to `1/2`. -/
theorem piecewise_linear_interpolates_witness :
    (piecewise_linear [some 1] [0, 1, 2] [0, 1/2, 1])[0]? =
      some (some (([0, 1/2, 1] : List ℚ).getD 1 0)) :=
  (piecewise_linear_interpolates [0, 1, 2] [0, 1/2, 1] [some 1] 0 1
    (by norm_num [List.chain'_cons]) (by norm_num) (by norm_num) (by norm_num)
    (by norm_num) (by norm_num)).2 1 (by norm_num) (by norm_num)

/-- Claim C2: for every curve (ascending unique x, length ≥ 2) and every
non-missing value outside the curve domain, `piecewise_linear`
extrapolates linearly: below `x_min` with the slope of the first segment,
above `x_max` with the slope of the last segment. -/
theorem piecewise_linear_extrapolates (xs ys : List ℚ) (values : List Cell)
    (j : Nat) (v : ℚ)
    (hasc : List.Chain' (· < ·) xs) (hlen2 : 2 ≤ xs.length)
    (hlen : ys.length = xs.length)
    (hval : values[j]? = some (some v)) :
    (v < xs.getD 0 0 →
      (piecewise_linear values xs ys)[j]? =
        some (some (ys.getD 0 0 +
          (ys.getD 1 0 - ys.getD 0 0) / (xs.getD 1 0 - xs.getD 0 0) *
            (v - xs.getD 0 0)))) ∧
    (xs.getD (xs.length - 1) 0 < v →
      (piecewise_linear values xs ys)[j]? =
        some (some (ys.getD (ys.length - 1) 0 +
          (ys.getD (ys.length - 1) 0 - ys.getD (ys.length - 2) 0) /
            (xs.getD (xs.length - 1) 0 - xs.getD (xs.length - 2) 0) *
              (v - xs.getD (xs.length - 1) 0)))) := by
  have hmap : (piecewise_linear values xs ys)[j]? =
      some (piecewise_linear_cell xs ys (some v)) := by
    simp [piecewise_linear, List.getElem?_map, hval]
  have hne : xs ≠ [] := by
    intro h
    rw [h] at hlen2
    simp at hlen2
  have hyne : ys ≠ [] := by
    intro h
    rw [h] at hlen
    simp at hlen
    omega
  have hhead : xs.headD 0 = xs.getD 0 0 := headD_eq_getD xs
  have hheady : ys.headD 0 = ys.getD 0 0 := headD_eq_getD ys
  have hlast : xs.getLastD 0 = xs.getD (xs.length - 1) 0 := getLastD_eq_getD xs hne
  have hlasty : ys.getLastD 0 = ys.getD (ys.length - 1) 0 := getLastD_eq_getD ys hyne
  have hfl : xs.getD 0 0 < xs.getD (xs.length - 1) 0 :=
    chain_getD_lt hasc (by omega) (by omega)
  constructor
  · intro hv
    have hv' : v < xs.headD 0 := by rw [hhead]; exact hv
    have hnr : ¬ xs.getLastD 0 < v := by
      rw [hlast]
      exact not_lt.mpr (le_of_lt (hv.trans hfl))
    rw [hmap]
    simp only [piecewise_linear_cell]
    rw [if_neg hnr, if_pos hv', hhead, hheady]
  · intro hv
    have hv' : xs.getLastD 0 < v := by rw [hlast]; exact hv
    rw [hmap]
    simp only [piecewise_linear_cell]
    rw [if_pos hv', hlast, hlasty]

/-- Concrete run of `piecewise_linear_extrapolates`: the input `-1`, below
the domain of the curve `x = [0,1,2], y = [0,1/2,1]`, maps to `-1/2`. -/
theorem piecewise_linear_extrapolates_witness :
    (piecewise_linear [some (-1)] [0, 1, 2] [0, 1/2, 1])[0]? =
      some (some ((-1 : ℚ)/2)) := by
  have h := (piecewise_linear_extrapolates [0, 1, 2] [0, 1/2, 1] [some (-1)] 0 (-1)
    (by norm_num [List.chain'_cons]) (by norm_num) (by norm_num) (by norm_num)).1
    (by norm_num)
  exact h.trans (by norm_num)

/-- Claim C3: `piecewise_linear` applies no clamping to [0,1]:
extrapolated SI values fall outside [0,1] and are returned as-is; for the
curve `x = [0,1,2], y = [0,1/2,1]` and the inputs
`[-1, 0, 1/2, 1, 3/2, 3]`, the outputs are exactly
`[-1/2, 0, 1/4, 1/2, 3/4, 3/2]`. -/
theorem piecewise_linear_example_no_clamp :
    piecewise_linear [some (-1), some 0, some (1/2), some 1, some (3/2), some 3]
      [0, 1, 2] [0, 1/2, 1] =
      [some (-1/2), some 0, some (1/4), some (1/2), some (3/4), some (3/2)] := by
  norm_num [piecewise_linear, piecewise_linear_cell, npInterp, interpGo]

/-- Claim C10: although no clamping is applied anywhere, for every curve
whose y-values all lie in [0,1] and every non-missing input value inside
the curve domain, the interpolated SI is a convex combination of the two
bracketing break points' y-values — it lies between their minimum and
maximum, hence in [0,1]. -/
theorem interpolation_in_unit_interval (xs ys : List ℚ) (values : List Cell)
    (j : Nat) (v : ℚ)
    (hasc : List.Chain' (· < ·) xs) (hlen2 : 2 ≤ xs.length)
    (hlen : ys.length = xs.length)
    (hbound : ∀ y ∈ ys, 0 ≤ y ∧ y ≤ 1)
    (hval : values[j]? = some (some v))
    (hlo : xs.headD 0 ≤ v) (hhi : v ≤ xs.getLastD 0) :
    ∃ i r, i + 1 < xs.length ∧ xs.getD i 0 ≤ v ∧ v ≤ xs.getD (i + 1) 0 ∧
      (piecewise_linear values xs ys)[j]? = some (some r) ∧
      min (ys.getD i 0) (ys.getD (i + 1) 0) ≤ r ∧
      r ≤ max (ys.getD i 0) (ys.getD (i + 1) 0) ∧
      0 ≤ r ∧ r ≤ 1 := by
  have hmap : (piecewise_linear values xs ys)[j]? =
      some (piecewise_linear_cell xs ys (some v)) := by
    simp [piecewise_linear, List.getElem?_map, hval]
  obtain ⟨i, hi, h1, h2, h3⟩ :=
    piecewise_linear_cell_bracket xs ys v hasc hlen2 hlen hlo hhi
  have hdx : xs.getD i 0 < xs.getD (i + 1) 0 :=
    chain_getD_lt hasc (Nat.lt_succ_self i) hi
  have hyi : 0 ≤ ys.getD i 0 ∧ ys.getD i 0 ≤ 1 := by
    have hiy : i < ys.length := by omega
    rw [List.getD_eq_getElem _ _ hiy]
    exact hbound _ (ys.getElem_mem hiy)
  have hyi1 : 0 ≤ ys.getD (i + 1) 0 ∧ ys.getD (i + 1) 0 ≤ 1 := by
    have hiy : i + 1 < ys.length := by omega
    rw [List.getD_eq_getElem _ _ hiy]
    exact hbound _ (ys.getElem_mem hiy)
  set xi := xs.getD i 0 with hxi
  set xi1 := xs.getD (i + 1) 0 with hxi1
  set yi := ys.getD i 0 with hyidef
  set yi1 := ys.getD (i + 1) 0 with hyi1def
  set t : ℚ := (v - xi) / (xi1 - xi) with ht
  have ht0 : 0 ≤ t := div_nonneg (by linarith) (by linarith)
  have ht1 : t ≤ 1 := (div_le_one (by linarith)).mpr (by linarith)
  have hrt : yi + (yi1 - yi) / (xi1 - xi) * (v - xi) = yi + (yi1 - yi) * t := by
    rw [ht]
    ring
  refine ⟨i, (yi + (yi1 - yi) * t), hi, h1, h2, ?_, ?_, ?_, ?_, ?_⟩
  · rw [hmap, h3, hrt]
  · rcases le_total yi yi1 with h | h
    · rw [min_eq_left h]
      nlinarith
    · rw [min_eq_right h]
      nlinarith
  · rcases le_total yi yi1 with h | h
    · rw [max_eq_right h]
      nlinarith
    · rw [max_eq_left h]
      nlinarith
  · nlinarith [hyi.1, hyi1.1]
  · nlinarith [hyi.2, hyi1.2]

/-- Concrete run of `interpolation_in_unit_interval` on the example curve
at the in-range input `3/2`. -/
theorem interpolation_in_unit_interval_witness :
    ∃ i r, i + 1 < ([0, 1, 2] : List ℚ).length ∧
      ([0, 1, 2] : List ℚ).getD i 0 ≤ 3/2 ∧
      (3/2 : ℚ) ≤ ([0, 1, 2] : List ℚ).getD (i + 1) 0 ∧
      (piecewise_linear [some (3/2)] [0, 1, 2] [0, 1/2, 1])[0]? = some (some r) ∧
      min (([0, 1/2, 1] : List ℚ).getD i 0) (([0, 1/2, 1] : List ℚ).getD (i + 1) 0) ≤ r ∧
      r ≤ max (([0, 1/2, 1] : List ℚ).getD i 0) (([0, 1/2, 1] : List ℚ).getD (i + 1) 0) ∧
      0 ≤ r ∧ r ≤ 1 :=
  interpolation_in_unit_interval [0, 1, 2] [0, 1/2, 1] [some (3/2)] 0 (3/2)
    (by norm_num [List.chain'_cons]) (by norm_num) (by norm_num)
    (by intro y hy; fin_cases hy <;> norm_num) (by norm_num) (by norm_num)
    (by norm_num)

/-! ## Claims about compositing and the habitat summary -/

/-- Claim C5: the compositor computes cell-wise `cHSI = sqrt(si_h*si_v)`;
where the product is negative the cell is missing and no error is raised —
every other cell of the composite is still produced, independently. -/
theorem chsi_sqrt_of_product (x y : ℚ) (si_h si_v : List Cell) (i : Nat) :
    (x * y < 0 → chsiCell (some x) (some y) = none) ∧
    (0 ≤ x * y → ∃ p : ℚ, chsiCell (some x) (some y) = some p ∧ p = x * y ∧
      0 ≤ Real.sqrt (p : ℝ) ∧ Real.sqrt (p : ℝ) ^ 2 = (x : ℝ) * (y : ℝ)) ∧
    (i < si_h.length → i < si_v.length →
      (chsi si_h si_v)[i]? = some (chsiCell (si_h.getD i none) (si_v.getD i none))) := by
  refine ⟨?_, ?_, ?_⟩
  · intro h
    simp only [chsiCell]
    rw [if_pos h]
  · intro h
    refine ⟨x * y, ?_, rfl, Real.sqrt_nonneg _, ?_⟩
    · simp only [chsiCell]
      rw [if_neg (not_lt.mpr h)]
    · rw [Real.sq_sqrt (by exact_mod_cast h)]
      push_cast
      ring
  · intro h1 h2
    rw [chsi, List.getElem?_zipWith, List.getElem?_eq_getElem h1,
      List.getElem?_eq_getElem h2, List.getD_eq_getElem _ _ h1,
      List.getD_eq_getElem _ _ h2]

/-- Concrete run of `chsi_sqrt_of_product` at `si_h = si_v = 1/2`. -/
theorem chsi_sqrt_of_product_witness :
    ∃ p : ℚ, chsiCell (some (1/2)) (some (1/2)) = some p ∧ p = (1/2 : ℚ) * (1/2) ∧
      0 ≤ Real.sqrt (p : ℝ) ∧
      Real.sqrt (p : ℝ) ^ 2 = ((1/2 : ℚ) : ℝ) * ((1/2 : ℚ) : ℝ) :=
  (chsi_sqrt_of_product (1/2) (1/2) [] [] 0).2.1 (by norm_num)

/-- Claim C4: missing cells propagate end to end: a missing depth
(velocity) cell gives a missing SI-h (SI-v) cell, a missing cell in either
SI raster gives a missing cHSI cell, and missing cHSI cells are never
counted as usable, for any threshold. -/
theorem missing_propagates (dep vel : List Cell) (hx hy vx vy : List ℚ)
    (si_h si_v : List Cell) (t : ℚ) (i : Nat) :
    (dep[i]? = some none → (piecewise_linear dep hx hy)[i]? = some none) ∧
    (vel[i]? = some none → (piecewise_linear vel vx vy)[i]? = some none) ∧
    (si_h.length = si_v.length →
      (si_h[i]? = some none ∨ si_v[i]? = some none) →
      (chsi si_h si_v)[i]? = some none) ∧
    (∀ cells : List Cell,
      n_pixels cells t = n_pixels (cells.filter fun c => c.isSome) t) := by
  refine ⟨?_, ?_, ?_, ?_⟩
  · intro h
    simp [piecewise_linear, List.getElem?_map, h, piecewise_linear_cell]
  · intro h
    simp [piecewise_linear, List.getElem?_map, h, piecewise_linear_cell]
  · intro hlen12 hor
    rw [chsi, List.getElem?_zipWith]
    rcases hor with h | h
    · have hi : i < si_h.length := by
        by_contra hc
        rw [List.getElem?_eq_none (by omega)] at h
        exact Option.noConfusion h
      rw [h, List.getElem?_eq_getElem (show i < si_v.length by omega)]
      cases si_v[i] <;> rfl
    · have hi : i < si_v.length := by
        by_contra hc
        rw [List.getElem?_eq_none (by omega)] at h
        exact Option.noConfusion h
      rw [h, List.getElem?_eq_getElem (show i < si_h.length by omega)]
      cases si_h[i] <;> rfl
  · intro cells
    rw [n_pixels, n_pixels, List.countP_filter]
    apply List.countP_congr
    intro c _
    cases c
    · simp [usableCell]
    · simp [usableCell]

/-- Concrete run of `missing_propagates`: a missing cell stays missing
through the depth interpolation. -/
theorem missing_propagates_witness :
    (piecewise_linear [none] [0, 1] [0, 1])[0]? = some none :=
  (missing_propagates [none] [] [0, 1] [0, 1] [] [] [] [] 0 0).1 rfl

/-- Claim C6: the summary counts exactly the cells whose cHSI value
`sqrt p` strictly exceeds the threshold (missing cells never count), the
pixel area is `abs(transform[0] * transform[4])`, and the total area is
the count times the pixel area. -/
theorem summary_correct (cells : List Cell) (t : ℚ) (tr : Affine) :
    (∀ p : ℚ, 0 ≤ p →
      (usableCell t (some p) = true ↔ (t : ℝ) < Real.sqrt (p : ℝ))) ∧
    usableCell t none = false ∧
    n_pixels cells t = cells.countP (usableCell t) ∧
    pixel_area_m2 tr = |tr.a * tr.e| ∧
    total_area_m2 cells t tr = (n_pixels cells t : ℚ) * pixel_area_m2 tr := by
  refine ⟨?_, rfl, rfl, rfl, rfl⟩
  intro p hp
  simp only [usableCell, decide_eq_true_eq]
  constructor
  · rintro (h | h)
    · exact lt_of_lt_of_le (by exact_mod_cast h) (Real.sqrt_nonneg _)
    · rcases lt_or_le t 0 with ht | ht
      · exact lt_of_lt_of_le (by exact_mod_cast ht) (Real.sqrt_nonneg _)
      · rw [Real.lt_sqrt (by exact_mod_cast ht)]
        have h2 : (t : ℝ) * t < (p : ℝ) := by exact_mod_cast h
        nlinarith
  · intro h
    rcases lt_or_le t 0 with ht | ht
    · exact Or.inl ht
    · right
      rw [Real.lt_sqrt (by exact_mod_cast ht)] at h
      have h2 : (t : ℝ) * t < (p : ℝ) := by nlinarith
      exact_mod_cast h2

/-- Concrete run of `summary_correct`: threshold 1/2 against a cHSI cell
whose radicand is 1. -/
theorem summary_correct_witness :
    usableCell (1/2) (some 1) = true ↔ ((1/2 : ℚ) : ℝ) < Real.sqrt ((1 : ℚ) : ℝ) :=
  (summary_correct [] (1/2) ⟨1, 0, 0, 0, 1, 0⟩).1 1 (by norm_num)

/-- Claim C9: the usable-pixel count is antitone in the threshold. -/
theorem n_pixels_antitone (cells : List Cell) (t1 t2 : ℚ) (h : t1 < t2) :
    n_pixels cells t2 ≤ n_pixels cells t1 := by
  apply List.countP_mono_left
  intro c _ hc
  cases c with
  | none => simp [usableCell] at hc
  | some p =>
    simp only [usableCell, decide_eq_true_eq] at hc ⊢
    rcases hc with h2 | h2
    · exact Or.inl (h.trans h2)
    · rcases lt_or_le t1 0 with h1 | h1
      · exact Or.inl h1
      · right
        nlinarith

/-- Concrete run of `n_pixels_antitone` at thresholds 0 < 1. -/
theorem n_pixels_antitone_witness :
    n_pixels [some 1, none, some (1/4)] 1 ≤ n_pixels [some 1, none, some (1/4)] 0 :=
  n_pixels_antitone [some 1, none, some (1/4)] 0 1 (by norm_num)

/-! ## Claims about grid alignment -/

/-- A four-step option chain is `none` as soon as one input is `none`. -/
theorem bind4_none (a b c d : Option ℚ) (f : ℚ → ℚ → ℚ → ℚ → ℚ)
    (h : a = none ∨ b = none ∨ c = none ∨ d = none) :
    (do
      let x ← a
      let y ← b
      let z ← c
      let w ← d
      pure (f x y z w) : Option ℚ) = none := by
  rcases h with h | h | h | h
  · subst h; rfl
  · subst h; cases a <;> rfl
  · subst h; cases a <;> cases b <;> rfl
  · subst h; cases a <;> cases b <;> cases c <;> rfl

/-- Claim C7: grid alignment compares width, height and affine transform
for exact equality; when all are equal the velocity raster is used
unchanged, and when any differs it is resampled onto the reference's
width and height by the (spec-modelled) bilinear interpolation, in which a
missing contributing cell makes the output cell missing; in all cases the
raster used downstream has the reference raster's shape. -/
theorem align_velocity_spec (dep vel : Raster) :
    (alignVelocity dep vel).width = dep.width ∧
    (alignVelocity dep vel).height = dep.height ∧
    (vel.width = dep.width ∧ vel.height = dep.height ∧
      vel.transform = dep.transform → alignVelocity dep vel = vel) ∧
    (vel.width ≠ dep.width ∨ vel.height ≠ dep.height ∨
      vel.transform ≠ dep.transform →
      alignVelocity dep vel = resampleBilinear dep vel) ∧
    (∀ row col : Nat,
      none ∈ bilinearNeighbors vel dep.width dep.height row col →
      bilinearCell vel dep.width dep.height row col = none) ∧
    (∀ row col : Nat, row < dep.height → col < dep.width →
      (resampleBilinear dep vel).data[row * dep.width + col]? =
        some (bilinearCell vel dep.width dep.height row col)) := by
  refine ⟨?_, ?_, ?_, ?_, ?_, ?_⟩
  · rw [alignVelocity]
    split
    · rfl
    · next hcond =>
        push_neg at hcond
        exact hcond.1
  · rw [alignVelocity]
    split
    · rfl
    · next hcond =>
        push_neg at hcond
        exact hcond.2.1
  · rintro ⟨h1, h2, h3⟩
    rw [alignVelocity, if_neg]
    push_neg
    exact ⟨h1, h2, h3⟩
  · intro hcond
    rw [alignVelocity, if_pos hcond]
  · intro row col hmem
    simp only [bilinearNeighbors, List.mem_cons, List.not_mem_nil, or_false] at hmem
    simp only [bilinearCell]
    exact bind4_none _ _ _ _ _ (by tauto)
  · intro row col hr hc
    have hW : 0 < dep.width := by omega
    have hidx : row * dep.width + col < dep.height * dep.width := by
      calc row * dep.width + col < row * dep.width + dep.width := by omega
        _ = (row + 1) * dep.width := by ring
        _ ≤ dep.height * dep.width := Nat.mul_le_mul_right _ hr
    have hdiv : (row * dep.width + col) / dep.width = row := by
      rw [Nat.mul_comm row dep.width, Nat.mul_add_div hW, Nat.div_eq_of_lt hc,
        Nat.add_zero]
    have hmod : (row * dep.width + col) % dep.width = col := by
      rw [Nat.mul_comm row dep.width, Nat.mul_add_mod, Nat.mod_eq_of_lt hc]
    show ((List.range (dep.height * dep.width)).map fun i =>
      bilinearCell vel dep.width dep.height (i / dep.width) (i % dep.width))[
        row * dep.width + col]? = _
    rw [List.getElem?_map, List.getElem?_range hidx]
    simp [hdiv, hmod]

/-- Concrete run of `align_velocity_spec`: a 1×1 velocity grid differing
from a 2×2 reference grid is resampled. -/
theorem align_velocity_spec_witness :
    alignVelocity
        ⟨2, 2, ⟨1, 0, 0, 0, -1, 0⟩, [some 1, some 1, some 1, some 1]⟩
        ⟨1, 1, ⟨2, 0, 0, 0, -2, 0⟩, [some 4]⟩ =
      resampleBilinear
        ⟨2, 2, ⟨1, 0, 0, 0, -1, 0⟩, [some 1, some 1, some 1, some 1]⟩
        ⟨1, 1, ⟨2, 0, 0, 0, -2, 0⟩, [some 4]⟩ :=
  (align_velocity_spec
    ⟨2, 2, ⟨1, 0, 0, 0, -1, 0⟩, [some 1, some 1, some 1, some 1]⟩
    ⟨1, 1, ⟨2, 0, 0, 0, -2, 0⟩, [some 4]⟩).2.2.2.1 (by norm_num)

/-! ## Claims about curve loading -/

/-- Claim C8 counterexample: a curve input whose depth column keeps only
one usable pair after `dropna`, on which curve loading nevertheless
succeeds — the source has no InvalidCurve check. -/
theorem read_suitability_short_curve_succeeds :
    (dropnaPairs (([⟨some 0, some 0, none, none⟩] : List CurveRow).map
      fun r => (r.h, r.si_h))).length < 2 ∧
    read_suitability_csv [⟨some 0, some 0, none, none⟩] ≠
      Except.error CurveError.invalidCurve := by
  constructor
  · simp [dropnaPairs]
  · intro h
    rw [show read_suitability_csv [⟨some 0, some 0, none, none⟩] =
        Except.ok ([0], [0], [], []) by
      simp [read_suitability_csv, dropnaPairs, sortByX]] at h
    exact Except.noConfusion h

/-- Claim C8 (amended): curve loading never fails — `read_suitability_csv`
returns the dropped-and-sorted column arrays unconditionally, with no
length validation; fewer than two usable break points surface only later,
inside interpolation, not as an InvalidCurve error at load time. -/
theorem read_suitability_never_fails (rows : List CurveRow) :
    read_suitability_csv rows = Except.ok
      ((sortByX (dropnaPairs (rows.map fun r => (r.h, r.si_h)))).map Prod.fst,
        (sortByX (dropnaPairs (rows.map fun r => (r.h, r.si_h)))).map Prod.snd,
        (sortByX (dropnaPairs (rows.map fun r => (r.v, r.si_v)))).map Prod.fst,
        (sortByX (dropnaPairs (rows.map fun r => (r.v, r.si_v)))).map Prod.snd) ∧
    ∀ e : CurveError, read_suitability_csv rows ≠ Except.error e := by
  refine ⟨rfl, fun e h => ?_⟩
  rw [read_suitability_csv] at h
  exact Except.noConfusion h

/-- Concrete run of `read_suitability_never_fails` on the empty input. -/
theorem read_suitability_never_fails_witness :
    read_suitability_csv [] ≠ Except.error CurveError.invalidCurve :=
  (read_suitability_never_fails []).2 CurveError.invalidCurve

end CalculateUHA
